import Mathlib

/-!
Verification of the ectmap spatial visualization engine against its
specification.  Definitions are shallow embeddings of the TypeScript
source (src/app/components/StarMap.tsx, src/app/api/map/data/route.ts,
and the alliance-sovereignty route); machine floats are idealized as
exact rationals (or reals where square roots are pushed back into
positions), and strict comparisons of nonnegative distances are carried
out on squared distances where that is an exact rewriting.
-/

namespace Ectmap

/-! ## Coordinate projector (StarMap.tsx `coordinateData`, `toCanvasX/Y`)

The map view uses `padding = 50`, the system view `padding = 100`; both
compute `scale = min ((w - 2p) / (bbW || 1), (h - 2p) / (bbH || 1))`
where `x || 1` is JavaScript's "replace a zero by 1" on the bounding-box
extent. -/

/-- JavaScript `v || 1` for a numeric bounding-box extent: `1` when the
extent is zero, the extent itself otherwise. -/
def orOne (v : ℚ) : ℚ := if v = 0 then 1 else v

/-- `coordinateData.scale` from StarMap.tsx, with the padding made a
parameter (the source instantiates it to 50 in the map view and 100 in
the system view). -/
def fitScale (w h padding bbW bbH : ℚ) : ℚ :=
  min ((w - padding * 2) / orOne bbW) ((h - padding * 2) / orOne bbH)

/-- Map-view `coordinateData.scale` (padding 50). -/
def mapFitScale (w h bbW bbH : ℚ) : ℚ := fitScale w h 50 bbW bbH

/-- `toCanvasX`: project a world x into pre-camera pixel space. -/
def toCanvasX (minX scale padding x : ℚ) : ℚ := (x - minX) * scale + padding

/-- `toCanvasY`: project a world y into pre-camera pixel space with the
vertical flip. -/
def toCanvasY (h minY scale padding y : ℚ) : ℚ :=
  h - ((y - minY) * scale + padding)

/-! ## Camera (StarMap.tsx camera state, wheel handler, initial placement) -/

structure Camera where
  x : ℚ
  y : ℚ
  zoom : ℚ
deriving DecidableEq, Repr

/-- The zoom clamp `Math.max(0.1, Math.min(10, z))`. -/
def clampZoom (z : ℚ) : ℚ := max (1/10) (min 10 z)

/-- The forward camera transform applied by the render loop:
`translate(w/2 + cam.x, h/2 + cam.y); scale(zoom); translate(-w/2, -h/2)`,
so a pre-camera pixel point `p` lands on screen at
`(p - center) * zoom + center + offset`. -/
def toScreen (w h : ℚ) (cam : Camera) (p : ℚ × ℚ) : ℚ × ℚ :=
  ((p.1 - w/2) * cam.zoom + w/2 + cam.x, (p.2 - h/2) * cam.zoom + h/2 + cam.y)

/-- The inverse transform used by the wheel handler and hit tests:
`worldX = (mouseX - w/2 - cam.x) / cam.zoom` (and the same on y).  This
is the "world point under the cursor" in the handler's own coordinate
convention (pre-camera pixel coordinates shifted by the surface center). -/
def worldAt (w h : ℚ) (cam : Camera) (mx my : ℚ) : ℚ × ℚ :=
  ((mx - w/2 - cam.x) / cam.zoom, (my - h/2 - cam.y) / cam.zoom)

/-- `handleWheelEvent`'s camera update (identical in the map view and the
system view): clamp the multiplicative zoom, recover the world point
under the cursor at the old zoom, then solve the offsets so the same
world point stays under the cursor. -/
def wheelUpdate (w h : ℚ) (cam : Camera) (mx my d : ℚ) : Camera :=
  let newZoom := clampZoom (cam.zoom * (1 + d))
  let worldX := (mx - w/2 - cam.x) / cam.zoom
  let worldY := (my - h/2 - cam.y) / cam.zoom
  { x := mx - w/2 - worldX * newZoom
    y := my - h/2 - worldY * newZoom
    zoom := newZoom }

/-- Map-view initial camera placement: center the midpoint of the
projected bounding box on the surface center at zoom 2. -/
def initialCamera (w h mapCenterX mapCenterY : ℚ) : Camera :=
  { x := -(mapCenterX - w/2) * 2
    y := -(mapCenterY - h/2) * 2
    zoom := 2 }

/-- The midpoint of the rendered bounding box computed by the map view's
camera-initialization effect from `coordinateData`. -/
def mapCenter (h minX minY maxX maxY scale padding : ℚ) : ℚ × ℚ :=
  let renderedMinX := padding
  let renderedMaxX := (maxX - minX) * scale + padding
  let renderedMinY := h - ((maxY - minY) * scale + padding)
  let renderedMaxY := h - padding
  ((renderedMinX + renderedMaxX) / 2, (renderedMinY + renderedMaxY) / 2)

/-- The camera operations the map view performs, each taken from the
source: wheel zoom, drag pan (`offset = client - dragStart`),
search-result selection (system target zoom 8, region target zoom 4),
and (re)initial placement at zoom 2. -/
inductive CamOp
  | wheel (mx my d : ℚ)
  | drag (clientX clientY dragStartX dragStartY : ℚ)
  | selectSystem (canvasX canvasY : ℚ)
  | selectRegion (canvasX canvasY : ℚ)
  | initPlace (centerX centerY : ℚ)

/-- One camera state transition per input operation, as written in
StarMap.tsx (`handleWheelEvent`, `handleMouseMove` drag branch,
`handleSelectResult`, and the initialization effect). -/
def camStep (w h : ℚ) (cam : Camera) : CamOp → Camera
  | .wheel mx my d => wheelUpdate w h cam mx my d
  | .drag cx cy sx sy => { cam with x := cx - sx, y := cy - sy }
  | .selectSystem px py =>
      { x := -(px - w/2) * 8, y := -(py - h/2) * 8, zoom := 8 }
  | .selectRegion px py =>
      { x := -(px - w/2) * 4, y := -(py - h/2) * 4, zoom := 4 }
  | .initPlace cx cy => initialCamera w h cx cy

/-! ## Theorems about the projector and camera -/

theorem clampZoom_le (z : ℚ) : clampZoom z ≤ 10 := by
  unfold clampZoom
  rw [max_le_iff]
  exact ⟨by norm_num, min_le_left _ _⟩

theorem le_clampZoom (z : ℚ) : 1/10 ≤ clampZoom z := le_max_left _ _

theorem clampZoom_pos (z : ℚ) : clampZoom z ≠ 0 := by
  have := le_clampZoom z
  intro h
  rw [h] at this
  norm_num at this

/-- A single wheel step keeps the world point under the cursor fixed,
as long as the starting zoom is nonzero. -/
theorem wheelUpdate_world (w h mx my d : ℚ) (cam : Camera)
    (hz : cam.zoom ≠ 0) :
    worldAt w h (wheelUpdate w h cam mx my d) mx my = worldAt w h cam mx my := by
  have hz' : clampZoom (cam.zoom * (1 + d)) ≠ 0 := clampZoom_pos _
  unfold wheelUpdate worldAt
  simp only [Prod.mk.injEq]
  constructor <;> (field_simp; ring)

theorem camStep_zoom_mem (w h : ℚ) (cam : Camera) (op : CamOp)
    (hlo : 1/10 ≤ cam.zoom) (hhi : cam.zoom ≤ 10) :
    1/10 ≤ (camStep w h cam op).zoom ∧ (camStep w h cam op).zoom ≤ 10 := by
  cases op with
  | wheel mx my d => exact ⟨le_clampZoom _, clampZoom_le _⟩
  | drag cx cy sx sy => exact ⟨hlo, hhi⟩
  | selectSystem px py =>
      exact ⟨by norm_num [camStep], by norm_num [camStep]⟩
  | selectRegion px py =>
      exact ⟨by norm_num [camStep], by norm_num [camStep]⟩
  | initPlace cx cy =>
      exact ⟨by norm_num [camStep, initialCamera],
        by norm_num [camStep, initialCamera]⟩

/-- C1 (counterexample): at the default surface 1200x800, a zero-size
bounding box makes the map-view fit-scale 700, not 1: the `|| 1` guard
defaults the *denominator* to 1, so the scale becomes
`min (width - 100) (height - 100)`. -/
theorem fitScale_degenerate_ne_one :
    mapFitScale 1200 800 0 0 = 700 ∧ mapFitScale 1200 800 0 0 ≠ 1 := by
  constructor <;> norm_num [mapFitScale, fitScale, orOne]

/-- C1 (amended): for every zero-width, zero-height bounding box, every
surface size and every padding, the fit-scale is
`min (width - 2 padding) (height - 2 padding)` (the guard replaces the
zero denominators by 1, so no division by zero occurs), and the camera
still initializes centered: the midpoint of the rendered bounding box is
mapped to the surface center by the initial camera transform. -/
theorem fitScale_degenerate (w h padding minX minY : ℚ) :
    fitScale w h padding 0 0 = min (w - padding * 2) (h - padding * 2) ∧
    (let scale := fitScale w h padding 0 0
     let c := mapCenter h minX minY minX minY scale padding
     toScreen w h (initialCamera w h c.1 c.2) c = (w/2, h/2)) := by
  refine ⟨by norm_num [fitScale, orOne], ?_⟩
  simp only [mapCenter, toScreen, initialCamera, Prod.mk.injEq]
  constructor <;> ring

/-- C4: for a camera with zoom in [0.1, 10], each wheel step sets the
new zoom to `clamp (zoom * (1 + d)) 0.1 10`, and after any sequence of
accumulated wheel deltas applied at a fixed cursor position the world
point under the cursor is exactly the one under it initially (in exact
rational arithmetic), with the zoom still in [0.1, 10].  Since every
prefix of a delta sequence is itself a sequence, this holds after each
step. -/
theorem wheel_zoom_anchored (w h mx my : ℚ) (cam : Camera) (ds : List ℚ)
    (hlo : 1/10 ≤ cam.zoom) (hhi : cam.zoom ≤ 10) :
    (∀ d, (wheelUpdate w h cam mx my d).zoom = clampZoom (cam.zoom * (1 + d))) ∧
    (let cam' := ds.foldl (fun c d => wheelUpdate w h c mx my d) cam
     worldAt w h cam' mx my = worldAt w h cam mx my ∧
       1/10 ≤ cam'.zoom ∧ cam'.zoom ≤ 10) := by
  refine ⟨fun d => rfl, ?_⟩
  simp only
  induction ds generalizing cam with
  | nil => exact ⟨rfl, hlo, hhi⟩
  | cons d ds ih =>
      have hz : cam.zoom ≠ 0 := by
        intro h0
        rw [h0] at hlo
        norm_num at hlo
      have hstep := wheelUpdate_world w h mx my d cam hz
      have hlo' : 1/10 ≤ (wheelUpdate w h cam mx my d).zoom := le_clampZoom _
      have hhi' : (wheelUpdate w h cam mx my d).zoom ≤ 10 := clampZoom_le _
      obtain ⟨hw, hl, hh⟩ := ih (wheelUpdate w h cam mx my d) hlo' hhi'
      exact ⟨hw.trans hstep, hl, hh⟩

/-- Witness for `wheel_zoom_anchored` at surface 800x600, cursor (10, 20),
camera (0, 0, zoom 2), one wheel delta of +0.1. -/
theorem wheel_zoom_anchored_witness :
    (1/10 : ℚ) ≤ (2 : ℚ) ∧ (2 : ℚ) ≤ 10 ∧
    ((∀ d, (wheelUpdate 800 600 ⟨0, 0, 2⟩ 10 20 d).zoom =
        clampZoom (2 * (1 + d))) ∧
     (let cam' := [(1/10 : ℚ)].foldl
        (fun c d => wheelUpdate 800 600 c 10 20 d) ⟨0, 0, 2⟩
      worldAt 800 600 cam' 10 20 = worldAt 800 600 ⟨0, 0, 2⟩ 10 20 ∧
        1/10 ≤ cam'.zoom ∧ cam'.zoom ≤ 10)) :=
  ⟨by norm_num, by norm_num,
    wheel_zoom_anchored 800 600 10 20 ⟨0, 0, 2⟩ [1/10]
      (by norm_num) (by norm_num)⟩

theorem camFold_zoom_mem (w h : ℚ) (ops : List CamOp) :
    ∀ cam : Camera, 1/10 ≤ cam.zoom → cam.zoom ≤ 10 →
      1/10 ≤ (ops.foldl (camStep w h) cam).zoom ∧
        (ops.foldl (camStep w h) cam).zoom ≤ 10 := by
  induction ops with
  | nil => exact fun cam hlo hhi => ⟨hlo, hhi⟩
  | cons op ops ih =>
      intro cam hlo hhi
      rw [List.foldl_cons]
      obtain ⟨h1, h2⟩ := camStep_zoom_mem w h cam op hlo hhi
      exact ih _ h1 h2

/-! ## Map-view click query (StarMap.tsx `handleMouseUp`)

The handler compares Euclidean distances to fixed thresholds; we carry
the comparisons on squared distances, which is exact for the nonnegative
thresholds involved (`5` for the click-vs-drag test and `10 / zoom` for
the hit radius, the latter nonnegative whenever `zoom > 0`, which the
camera invariant guarantees). -/

/-- Squared Euclidean distance between two points. -/
def dist2 (p q : ℚ × ℚ) : ℚ := (p.1 - q.1)^2 + (p.2 - q.2)^2

/-- A system as the click loop sees it: its stable identity and its
projected pre-camera canvas position. -/
structure SysPt where
  id : ℕ
  x : ℚ
  y : ℚ
deriving DecidableEq, Repr

/-- The inverse transform of `handleMouseUp`/`handleMouseMove`:
`worldX = (mouseX - w/2 - cam.x) / cam.zoom + w/2` (and the same on y). -/
def worldPoint (w h : ℚ) (cam : Camera) (mx my : ℚ) : ℚ × ℚ :=
  ((mx - w/2 - cam.x) / cam.zoom + w/2, (my - h/2 - cam.y) / cam.zoom + h/2)

/-- Whether a system is inside the click hit radius `10 / zoom` of the
cursor's world point (squared form of `distance < clickRadius`). -/
def withinClickRadius (world : ℚ × ℚ) (zoom : ℚ) (s : SysPt) : Bool :=
  decide (dist2 world (s.x, s.y) < (10 / zoom)^2)

/-- `handleMouseUp`'s click branch: when the mouse-up is within 5 px of
the mouse-down, scan the systems in order and navigate to the first one
strictly inside the click radius (the loop `break`s at the first hit);
otherwise do nothing.  Returns the id passed to navigation, if any. -/
def handleMapClick (w h : ℚ) (cam : Camera) (downX downY upX upY : ℚ)
    (systems : List SysPt) : Option ℕ :=
  if (upX - downX)^2 + (upY - downY)^2 < 25 then
    let world := worldPoint w h cam upX upY
    (systems.find? (withinClickRadius world cam.zoom)).map (·.id)
  else none

/-- C2 (counterexample): with the camera at zoom 1 over an 800x600
surface and a stationary click at the surface center, two systems lie
within the click radius, at distances 4 and 1 from the cursor's world
point; navigation is triggered with the identity of the *first*
(distance 4), which is not the nearest. -/
theorem mapClick_not_nearest :
    handleMapClick 800 600 ⟨0, 0, 1⟩ 400 300 400 300
        [⟨101, 404, 300⟩, ⟨102, 401, 300⟩] = some 101 ∧
    withinClickRadius (worldPoint 800 600 ⟨0, 0, 1⟩ 400 300) 1
        ⟨102, 401, 300⟩ = true ∧
    dist2 (worldPoint 800 600 ⟨0, 0, 1⟩ 400 300) (401, 300) <
      dist2 (worldPoint 800 600 ⟨0, 0, 1⟩ 400 300) (404, 300) := by
  refine ⟨?_, ?_, ?_⟩ <;>
    norm_num [handleMapClick, worldPoint, withinClickRadius, dist2, List.find?]

/-- C2 (amended): a qualifying map-view click (mouse-up within 5 px of
mouse-down) triggers at most one navigation, with the identity of the
*first system in iteration order* whose distance to the cursor's world
point is below the zoom-scaled click radius — every system scanned
before it lies outside the radius (so the result is unique but not
necessarily the nearest); when no system is in radius, or the mouse
moved 5 px or more, no navigation happens. -/
theorem mapClick_first_hit (w h : ℚ) (cam : Camera) (downX downY upX upY : ℚ)
    (systems : List SysPt) (r : ℕ)
    (hr : handleMapClick w h cam downX downY upX upY systems = some r) :
    (upX - downX)^2 + (upY - downY)^2 < 25 ∧
    ∃ pre s post, systems = pre ++ s :: post ∧ s.id = r ∧
      withinClickRadius (worldPoint w h cam upX upY) cam.zoom s = true ∧
      ∀ s' ∈ pre,
        withinClickRadius (worldPoint w h cam upX upY) cam.zoom s' = false := by
  unfold handleMapClick at hr
  split at hr
  · next hclose =>
      refine ⟨hclose, ?_⟩
      obtain ⟨s, hfind, hid⟩ := Option.map_eq_some'.mp hr
      obtain ⟨hp, pre, post, heq, hpre⟩ := List.find?_eq_some.mp hfind
      exact ⟨pre, s, post, heq, hid, hp,
        fun s' hs' => by simpa using hpre s' hs'⟩
  · exact absurd hr (by simp)

/-- Witness for `mapClick_first_hit` at the counterexample input. -/
theorem mapClick_first_hit_witness :
    handleMapClick 800 600 ⟨0, 0, 1⟩ 400 300 400 300
        [⟨101, 404, 300⟩, ⟨102, 401, 300⟩] = some 101 ∧
    ((400 - 400 : ℚ)^2 + (300 - 300 : ℚ)^2 < 25 ∧
     ∃ pre s post,
       [(⟨101, 404, 300⟩ : SysPt), ⟨102, 401, 300⟩] = pre ++ s :: post ∧
       s.id = 101 ∧
       withinClickRadius (worldPoint 800 600 ⟨0, 0, 1⟩ 400 300)
         (Camera.mk 0 0 1).zoom s = true ∧
       ∀ s' ∈ pre,
         withinClickRadius (worldPoint 800 600 ⟨0, 0, 1⟩ 400 300)
           (Camera.mk 0 0 1).zoom s' = false) :=
  ⟨by norm_num [handleMapClick, worldPoint, withinClickRadius, dist2, List.find?],
    mapClick_first_hit 800 600 ⟨0, 0, 1⟩ 400 300 400 300
      [⟨101, 404, 300⟩, ⟨102, 401, 300⟩] 101
      (by norm_num [handleMapClick, worldPoint, withinClickRadius, dist2,
        List.find?])⟩

/-- C5: starting from the map view's initial placement (zoom 2), any
sequence of camera operations — wheel zooms with arbitrary deltas, drag
pans, search-result selections (zoom 8 or 4), re-initializations — keeps
the zoom inside [0.1, 10].  Applies to every prefix, hence the zoom
never leaves the interval. -/
theorem zoom_always_clamped (w h cx cy : ℚ) (ops : List CamOp) :
    1/10 ≤ (ops.foldl (camStep w h) (initialCamera w h cx cy)).zoom ∧
    (ops.foldl (camStep w h) (initialCamera w h cx cy)).zoom ≤ 10 :=
  camFold_zoom_mem w h ops _ (by norm_num [initialCamera])
    (by norm_num [initialCamera])

/-! ## Stargate connection dedup (src/app/api/map/data/route.ts)

The route walks all loaded stargates, skips any whose endpoint systems
are not both in the allowed set, keys each by the ordered pair
`(min from to, max from to)` (the source formats it as the string
"min-max", injective on pairs of ids), and stores the connection only
the first time its key appears. -/

/-- The dedup key of a gate: its endpoints in ascending order
(`from < to ? from-to : to-from`). -/

def connKey (a b : ℕ) : ℕ × ℕ := if a < b then (a, b) else (b, a)

/-- The body of the `for (const gate of stargates)` loop: `seen` is the
`connectionSet` of keys, `out` the accumulated `stargateConnections`. -/
def dedupGo (allowed : List ℕ) :
    List (ℕ × ℕ) → List (ℕ × ℕ) → List (ℕ × ℕ) → List (ℕ × ℕ)
  | [], _, out => out
  | g :: rest, seen, out =>
    if g.1 ∈ allowed ∧ g.2 ∈ allowed then
      if connKey g.1 g.2 ∈ seen then dedupGo allowed rest seen out
      else dedupGo allowed rest (connKey g.1 g.2 :: seen) (out ++ [g])
    else dedupGo allowed rest seen out

/-- `stargateConnections` as emitted by the map-data endpoint: gates are
pairs `(solarSystemID, destination.solarSystemID)`. -/
def stargateConnections (gates : List (ℕ × ℕ)) (allowed : List ℕ) : List (ℕ × ℕ) :=
  dedupGo allowed gates [] []

/-- Whether a stored connection represents the unordered pair keyed `K`. -/
def keyedAs (K : ℕ × ℕ) (c : ℕ × ℕ) : Bool := decide (connKey c.1 c.2 = K)

theorem dedupGo_countP (allowed : List ℕ) (K : ℕ × ℕ) :
    ∀ (rest seen out : List (ℕ × ℕ)),
      out.countP (keyedAs K) = (if K ∈ seen then 1 else 0) →
      (dedupGo allowed rest seen out).countP (keyedAs K) =
        (if K ∈ seen ∨ ∃ g ∈ rest, g.1 ∈ allowed ∧ g.2 ∈ allowed ∧ connKey g.1 g.2 = K
         then 1 else 0) := by
  intro rest
  induction rest with
  | nil => intro seen out h; simpa using h
  | cons g rest ih =>
      intro seen out h
      by_cases hallow : g.1 ∈ allowed ∧ g.2 ∈ allowed
      · by_cases hseen : connKey g.1 g.2 ∈ seen
        · rw [dedupGo, if_pos hallow, if_pos hseen, ih seen out h]
          congr 1
          simp only [List.mem_cons, eq_iff_iff]
          constructor
          · rintro (hK | ⟨g', hg', hcond⟩)
            · exact Or.inl hK
            · exact Or.inr ⟨g', Or.inr hg', hcond⟩
          · rintro (hK | ⟨g', hg', hcond⟩)
            · exact Or.inl hK
            · rcases hg' with rfl | hg'
              · exact Or.inl (hcond.2.2 ▸ hseen)
              · exact Or.inr ⟨g', hg', hcond⟩
        · rw [dedupGo, if_pos hallow, if_neg hseen]
          have hout' : (out ++ [g]).countP (keyedAs K) =
              (if K ∈ connKey g.1 g.2 :: seen then 1 else 0) := by
            rw [List.countP_append]
            by_cases hKg : connKey g.1 g.2 = K
            · have hKnot : K ∉ seen := hKg ▸ hseen
              rw [h, if_neg hKnot, if_pos (hKg ▸ List.mem_cons_self _ _)]
              simp [keyedAs, hKg]
            · have hmem : K ∈ connKey g.1 g.2 :: seen ↔ K ∈ seen := by
                simp only [List.mem_cons]
                constructor
                · rintro (hh | hh)
                  · exact absurd hh.symm hKg
                  · exact hh
                · exact Or.inr
              rw [h, if_congr hmem rfl rfl]
              simp [keyedAs, hKg]
          rw [ih _ _ hout']
          congr 1
          simp only [List.mem_cons, eq_iff_iff]
          constructor
          · rintro (⟨hK | hK⟩ | ⟨g', hg', hcond⟩)
            · exact Or.inr ⟨g, Or.inl rfl, hallow.1, hallow.2, hK.symm⟩
            · exact Or.inl hK
            · exact Or.inr ⟨g', Or.inr hg', hcond⟩
          · rintro (hK | ⟨g', hg', hcond⟩)
            · exact Or.inl (Or.inr hK)
            · rcases hg' with rfl | hg'
              · exact Or.inl (Or.inl hcond.2.2.symm)
              · exact Or.inr ⟨g', hg', hcond⟩
      · rw [dedupGo, if_neg hallow, ih seen out h]
        congr 1
        simp only [List.mem_cons, eq_iff_iff]
        constructor
        · rintro (hK | ⟨g', hg', hcond⟩)
          · exact Or.inl hK
          · exact Or.inr ⟨g', Or.inr hg', hcond⟩
        · rintro (hK | ⟨g', hg', hcond⟩)
          · exact Or.inl hK
          · rcases hg' with rfl | hg'
            · exact absurd ⟨hcond.1, hcond.2.1⟩ hallow
            · exact Or.inr ⟨g', hg', hcond⟩

/-- C9: for every gate list and allowed system set, the endpoint stores
exactly one connection per unordered pair of allowed systems appearing
among the gates (in either orientation), and none for pairs that never
appear or whose endpoints are not both allowed; in particular gates
`(a, b)` and `(b, a)` yield a single stored connection. -/
theorem stargateConnections_dedup (gates : List (ℕ × ℕ)) (allowed : List ℕ) (a b : ℕ) :
    (stargateConnections gates allowed).countP (keyedAs (connKey a b)) =
      (if ∃ g ∈ gates, g.1 ∈ allowed ∧ g.2 ∈ allowed ∧ connKey g.1 g.2 = connKey a b
       then 1 else 0) := by
  have h := dedupGo_countP allowed (connKey a b) gates [] [] (by simp)
  rw [stargateConnections, h]
  congr 1
  simp


/-! ## Alliance sovereignty overlay (the alliance-sovereignty route in
src/unnamed/part_001, plus the alliance coloring/clustering inputs in
StarMap.tsx)

The route filters the remote sovereignty map with
`entry.alliance_id && !entry.faction_id` (JavaScript truthiness: an id
is truthy when present and nonzero) and then writes
`result[entry.system_id] = { alliance_id, alliance_name }` in order,
guarded once more by `if (entry.alliance_id)`.  The overlay is modelled
as the map from system id to alliance id; colors are modelled as
structured `hsl` triples rather than their CSS string rendering. -/

/-- One record of the remote sovereignty map (`ESIAgent.getSovereigntyMap`). -/
structure SovEntry where
  system_id : ℕ
  alliance_id : Option ℕ
  corporation_id : Option ℕ
  faction_id : Option ℕ
deriving DecidableEq, Repr

/-- JavaScript truthiness of an optional numeric id: present and nonzero. -/
def truthyId : Option ℕ → Bool
  | none => false
  | some n => decide (n ≠ 0)

/-- `sovMap.filter((entry) => entry.alliance_id && !entry.faction_id)`. -/
def allianceSystems (sov : List SovEntry) : List SovEntry :=
  sov.filter (fun e => truthyId e.alliance_id && !truthyId e.faction_id)

/-- One step of the result-building loop: store the entry's alliance id
under its system id (overwriting), guarded by `if (entry.alliance_id)`. -/
def overlayInsert (acc : ℕ → Option ℕ) (e : SovEntry) : ℕ → Option ℕ :=
  if truthyId e.alliance_id then
    fun s => if s = e.system_id then e.alliance_id else acc s
  else acc

/-- The alliance-sovereignty endpoint's response, as a lookup map. -/
def allianceOverlay (sov : List SovEntry) : ℕ → Option ℕ :=
  (allianceSystems sov).foldl overlayInsert (fun _ => none)

/-- A parsed `hsl(h, s%, l%)` color. -/
inductive CSSColor
  | hsl (hue sat light : ℚ)
deriving DecidableEq, Repr

/-- The neutral marker color `hsl(0, 0%, 30%)`. -/
def neutralColor : CSSColor := .hsl 0 0 30

/-- JavaScript `%` on the nonnegative operands used here (for `a ≥ 0`,
`b > 0` the truncated and floored remainders coincide). -/
def jsMod (a b : ℚ) : ℚ := a - b * ⌊a / b⌋

/-- `getAllianceColor`: neutral for a falsy id, otherwise a hue derived
from the id by `(allianceId * 137.508) % 360`. -/
def getAllianceColor : Option ℕ → CSSColor
  | none => neutralColor
  | some aid =>
      if aid = 0 then neutralColor
      else .hsl (jsMod (aid * (137508/1000)) 360) 70 60

/-- The marker color the render loop picks in alliance mode: the
alliance color when the overlay has the system, neutral otherwise. -/
def systemAllianceColor (overlay : ℕ → Option ℕ) (sysId : ℕ) : CSSColor :=
  match overlay sysId with
  | some aid => getAllianceColor (some aid)
  | none => neutralColor

/-- The systems that enter alliance proximity clustering: the cluster
loop `continue`s on any system absent from the overlay. -/
def clusterMemberIds (overlay : ℕ → Option ℕ) (systems : List ℕ) : List ℕ :=
  systems.filter (fun s => (overlay s).isSome)

theorem truthyId_isSome {o : Option ℕ} (h : truthyId o = true) :
    o.isSome = true := by
  cases o with
  | none => simp [truthyId] at h
  | some a => rfl

theorem isSome_truthyId {o : Option ℕ}
    (hwf : o.all (fun a => decide (a ≠ 0)) = true) (h : o.isSome = true) :
    truthyId o = true := by
  cases o with
  | none => simp at h
  | some a =>
      simp only [Option.all, decide_eq_true_eq] at hwf
      simp [truthyId, hwf]

theorem overlayInsert_isSome (acc : ℕ → Option ℕ) (e : SovEntry) (s : ℕ) :
    ((overlayInsert acc e) s).isSome = true ↔
      (acc s).isSome = true ∨ (truthyId e.alliance_id = true ∧ e.system_id = s) := by
  unfold overlayInsert
  split
  · next htruthy =>
      simp only
      split
      · next heq =>
          simp only [truthyId_isSome htruthy, true_iff, htruthy, heq, true_and]
          exact Or.inr trivial
      · next hne =>
          constructor
          · exact Or.inl
          · rintro (h | ⟨-, hsid⟩)
            · exact h
            · exact absurd hsid.symm hne
  · next htruthy =>
      constructor
      · exact Or.inl
      · rintro (h | ⟨ht, -⟩)
        · exact h
        · exact absurd ht htruthy

theorem overlayFold_isSome (l : List SovEntry) :
    ∀ (acc : ℕ → Option ℕ) (s : ℕ),
      ((l.foldl overlayInsert acc) s).isSome = true ↔
        (acc s).isSome = true ∨
          ∃ e ∈ l, truthyId e.alliance_id = true ∧ e.system_id = s := by
  induction l with
  | nil => simp
  | cons e l ih =>
      intro acc s
      rw [List.foldl_cons, ih, overlayInsert_isSome]
      simp only [List.mem_cons]
      constructor
      · rintro ((h | he) | ⟨e', he', hc⟩)
        · exact Or.inl h
        · exact Or.inr ⟨e, Or.inl rfl, he⟩
        · exact Or.inr ⟨e', Or.inr he', hc⟩
      · rintro (h | ⟨e', he' | he', hc⟩)
        · exact Or.inl (Or.inl h)
        · exact Or.inl (Or.inr (he' ▸ hc))
        · exact Or.inr ⟨e', he', hc⟩

/-- C10: provided every id the remote map lists is nonzero (as ESI ids
are), the alliance overlay has an entry for a system iff the sovereignty
map lists it with an alliance_id and without a faction_id; a system
excluded this way renders in the neutral color and is not among the
alliance-clustering members. -/
theorem allianceOverlay_spec (sov : List SovEntry) (systems : List ℕ) (s : ℕ)
    (hwf : ∀ e ∈ sov, e.alliance_id.all (fun a => decide (a ≠ 0)) = true ∧
      e.faction_id.all (fun f => decide (f ≠ 0)) = true) :
    ((allianceOverlay sov s).isSome ↔
      ∃ e ∈ sov, e.system_id = s ∧ e.alliance_id.isSome ∧ e.faction_id = none) ∧
    (allianceOverlay sov s = none →
      systemAllianceColor (allianceOverlay sov) s = neutralColor ∧
      s ∉ clusterMemberIds (allianceOverlay sov) systems) := by
  constructor
  · rw [allianceOverlay, overlayFold_isSome]
    simp only [Option.isSome_none, Bool.false_eq_true, false_or]
    constructor
    · rintro ⟨e, he, htruthy, hsid⟩
      rw [allianceSystems, List.mem_filter] at he
      obtain ⟨hmem, hcond⟩ := he
      simp only [Bool.and_eq_true, Bool.not_eq_true'] at hcond
      refine ⟨e, hmem, hsid, truthyId_isSome htruthy, ?_⟩
      cases hfe : e.faction_id with
      | none => rfl
      | some f =>
          have hw := (hwf e hmem).2
          have hfc := hcond.2
          rw [hfe] at hw hfc
          simp only [Option.all, decide_eq_true_eq] at hw
          simp [truthyId, hw] at hfc
    · rintro ⟨e, he, hsid, hsome, hfnone⟩
      have htruthy : truthyId e.alliance_id = true :=
        isSome_truthyId (hwf e he).1 hsome
      refine ⟨e, ?_, htruthy, hsid⟩
      rw [allianceSystems, List.mem_filter]
      refine ⟨he, ?_⟩
      simp only [Bool.and_eq_true, Bool.not_eq_true']
      exact ⟨htruthy, by rw [hfnone]; rfl⟩
  · intro hnone
    constructor
    · rw [systemAllianceColor, hnone]
    · rw [clusterMemberIds, List.mem_filter]
      rintro ⟨-, habs⟩
      rw [hnone] at habs
      simp at habs

/-- Witness for `allianceOverlay_spec`: a two-entry sovereignty map in
which the second system carries both an alliance and a faction id, so it
is excluded, colored neutral and unclustered. -/
theorem allianceOverlay_spec_witness :
    (∀ e ∈ [SovEntry.mk 30002187 (some 1354830081) none none,
            SovEntry.mk 30002510 (some 99) none (some 500001)],
      e.alliance_id.all (fun a => decide (a ≠ 0)) = true ∧
      e.faction_id.all (fun f => decide (f ≠ 0)) = true) ∧
    (((allianceOverlay [SovEntry.mk 30002187 (some 1354830081) none none,
        SovEntry.mk 30002510 (some 99) none (some 500001)] 30002510).isSome ↔
      ∃ e ∈ [SovEntry.mk 30002187 (some 1354830081) none none,
             SovEntry.mk 30002510 (some 99) none (some 500001)],
        e.system_id = 30002510 ∧ e.alliance_id.isSome ∧ e.faction_id = none) ∧
     (allianceOverlay [SovEntry.mk 30002187 (some 1354830081) none none,
        SovEntry.mk 30002510 (some 99) none (some 500001)] 30002510 = none →
      systemAllianceColor (allianceOverlay
        [SovEntry.mk 30002187 (some 1354830081) none none,
         SovEntry.mk 30002510 (some 99) none (some 500001)]) 30002510 = neutralColor ∧
      30002510 ∉ clusterMemberIds (allianceOverlay
        [SovEntry.mk 30002187 (some 1354830081) none none,
         SovEntry.mk 30002510 (some 99) none (some 500001)]) [30002510])) :=
  ⟨by decide, allianceOverlay_spec _ [30002510] 30002510 (by decide)⟩

/-! ## Marker icon image cache (SystemDetail `loadImage` and draw loop)

`loadImage` first checks the cache and returns a hit; otherwise it
creates a new image element, wires its `onload` callback (which marks it
complete and re-inserts it), inserts it into the cache *immediately* —
before the asynchronous load resolves — and returns it.  The draw loop
calls `loadImage` and draws the icon only when `img.complete`, else the
plain filled fallback shape.  We model the element by its completion
flag and the session by a list of events: `req t` is a `loadImage t`
call, `done t` the load-completion callback for `t`. -/

/-- An image element as the cache sees it. -/
structure CachedImg where
  complete : Bool
deriving DecidableEq, Repr

/-- The cache-affecting events of a session. -/
inductive ImgEvent
  | req (typeID : ℕ)
  | done (typeID : ℕ)
deriving DecidableEq, Repr

/-- `loadImage`'s cache effect: hit returns the cache unchanged, miss
inserts a fresh, not-yet-complete entry synchronously. -/
def loadImageStep (cache : List (ℕ × CachedImg)) (t : ℕ) : List (ℕ × CachedImg) :=
  if (cache.lookup t).isSome then cache else (t, ⟨false⟩) :: cache

/-- The `onload` callback's cache effect: mark the entry complete
(re-inserting the same, now loaded, element). -/
def onloadStep (cache : List (ℕ × CachedImg)) (t : ℕ) : List (ℕ × CachedImg) :=
  cache.map (fun p => if p.1 = t then (t, ⟨true⟩) else p)

/-- One event step. -/
def imgStep (cache : List (ℕ × CachedImg)) : ImgEvent → List (ℕ × CachedImg)
  | .req t => loadImageStep cache t
  | .done t => onloadStep cache t

/-- The cache after a session of events, starting empty. -/
def runImgEvents (evs : List ImgEvent) : List (ℕ × CachedImg) :=
  evs.foldl imgStep []

/-- Whether drawing a marker of type id `t` takes the fallback branch:
the draw loop calls `loadImage t` and falls back unless the returned
element is complete. -/
def drawsFallback (cache : List (ℕ × CachedImg)) (t : ℕ) : Bool :=
  match (loadImageStep cache t).lookup t with
  | some img => !img.complete
  | none => true

theorem loadImageStep_lookup_self (cache : List (ℕ × CachedImg)) (t : ℕ) :
    ((loadImageStep cache t).lookup t).isSome = true := by
  unfold loadImageStep
  split
  · next h => exact h
  · simp [List.lookup]

theorem loadImageStep_lookup_ne (cache : List (ℕ × CachedImg)) (t u : ℕ)
    (h : t ≠ u) : (loadImageStep cache u).lookup t = cache.lookup t := by
  unfold loadImageStep
  split
  · rfl
  · simp [List.lookup, beq_false_of_ne h]

theorem onloadStep_lookup_ne (cache : List (ℕ × CachedImg)) (t u : ℕ)
    (h : t ≠ u) : (onloadStep cache u).lookup t = cache.lookup t := by
  induction cache with
  | nil => rfl
  | cons p cache ih =>
      unfold onloadStep at ih ⊢
      rw [List.map_cons]
      by_cases hp : p.1 = u
      · rw [if_pos hp]
        have h1 : (t == u) = false := beq_false_of_ne h
        have h2 : (t == p.1) = false := beq_false_of_ne (hp ▸ h)
        simp [List.lookup, h1, h2, ih]
      · rw [if_neg hp]
        rcases eq_or_ne t p.1 with rfl | hne
        · simp [List.lookup]
        · simp [List.lookup, beq_false_of_ne hne, ih]

theorem onloadStep_lookup_isSome (cache : List (ℕ × CachedImg)) (t u : ℕ) :
    ((onloadStep cache u).lookup t).isSome = (cache.lookup t).isSome := by
  rcases eq_or_ne t u with rfl | hne
  · induction cache with
    | nil => rfl
    | cons p cache ih =>
        unfold onloadStep at ih ⊢
        rw [List.map_cons]
        by_cases hp : p.1 = t
        · rw [if_pos hp]
          simp [List.lookup, hp]
        · rw [if_neg hp]
          simp [List.lookup, beq_false_of_ne (Ne.symm hp), ih]
  · rw [onloadStep_lookup_ne cache t u hne]

theorem runImg_lookup_isSome (evs : List ImgEvent) :
    ∀ (acc : List (ℕ × CachedImg)) (t : ℕ),
      (((evs.foldl imgStep acc).lookup t).isSome = true ↔
        ((acc.lookup t).isSome = true ∨ ImgEvent.req t ∈ evs)) := by
  induction evs with
  | nil => simp
  | cons ev evs ih =>
      intro acc t
      rw [List.foldl_cons, ih]
      cases ev with
      | req u =>
          simp only [imgStep, List.mem_cons]
          rcases eq_or_ne t u with rfl | hne
          · simp [loadImageStep_lookup_self]
          · rw [loadImageStep_lookup_ne acc t u hne]
            constructor
            · rintro (h | h)
              · exact Or.inl h
              · exact Or.inr (Or.inr h)
            · rintro (h | h | h)
              · exact Or.inl h
              · exact absurd h (by simp [hne])
              · exact Or.inr h
      | done u =>
          simp only [imgStep, List.mem_cons]
          rw [onloadStep_lookup_isSome]
          constructor
          · rintro (h | h)
            · exact Or.inl h
            · exact Or.inr (Or.inr h)
          · rintro (h | h | h)
            · exact Or.inl h
            · exact absurd h (by simp)
            · exact Or.inr h

theorem runImg_incomplete (evs : List ImgEvent) :
    ∀ (acc : List (ℕ × CachedImg)) (t : ℕ),
      ImgEvent.done t ∉ evs →
      (∀ img, acc.lookup t = some img → img.complete = false) →
      ∀ img, (evs.foldl imgStep acc).lookup t = some img → img.complete = false := by
  induction evs with
  | nil => intro acc t _ hacc; exact hacc
  | cons ev evs ih =>
      intro acc t hnot hacc
      rw [List.foldl_cons]
      have hnot' : ImgEvent.done t ∉ evs := fun h => hnot (List.mem_cons_of_mem _ h)
      refine ih _ t hnot' ?_
      cases ev with
      | req u =>
          intro img himg
          rcases eq_or_ne t u with rfl | hne
          · simp only [imgStep] at himg
            unfold loadImageStep at himg
            split at himg
            · exact hacc img himg
            · simp only [List.lookup, beq_self_eq_true] at himg
              cases himg
              rfl
          · rw [imgStep, loadImageStep_lookup_ne acc t u hne] at himg
            exact hacc img himg
      | done u =>
          intro img himg
          have hne : t ≠ u := by
            rintro rfl
            exact hnot (List.mem_cons_self _ _)
          rw [imgStep, onloadStep_lookup_ne acc t u hne] at himg
          exact hacc img himg

/-- C8 (amended): the cache holds an entry for a type id iff `loadImage`
was called on it — the entry is inserted at the first request, before
and regardless of load completion; as long as no load-completion event
for that id fired, the entry stays incomplete and the marker keeps
rendering the plain filled fallback shape. -/
theorem imageCache_spec (evs : List ImgEvent) (t : ℕ) :
    (((runImgEvents evs).lookup t).isSome = true ↔ ImgEvent.req t ∈ evs) ∧
    (ImgEvent.done t ∉ evs →
      (∀ img, (runImgEvents evs).lookup t = some img → img.complete = false) ∧
      drawsFallback (runImgEvents evs) t = true) := by
  constructor
  · rw [runImgEvents, runImg_lookup_isSome]
    simp [List.lookup]
  · intro hnot
    have hinc := runImg_incomplete evs [] t hnot (by simp [List.lookup])
    refine ⟨hinc, ?_⟩
    have hs := loadImageStep_lookup_self (runImgEvents evs) t
    obtain ⟨img, himg⟩ := Option.isSome_iff_exists.mp hs
    have h : img.complete = false := by
      unfold loadImageStep at himg
      split at himg
      · exact hinc img himg
      · simp only [List.lookup, beq_self_eq_true] at himg
        cases himg
        rfl
    unfold drawsFallback
    rw [himg]
    simp [h]

/-- C8 (counterexample): after a single `loadImage 42` call whose load
never completed, the cache already contains an entry for 42 — refuting
that the cache holds an entry only after a successful load — while the
marker still draws the fallback shape. -/
theorem imageCache_entry_without_load :
    (runImgEvents [ImgEvent.req 42]).lookup 42 = some ⟨false⟩ ∧
    ImgEvent.done 42 ∉ [ImgEvent.req 42] ∧
    drawsFallback (runImgEvents [ImgEvent.req 42]) 42 = true := by
  refine ⟨?_, ?_, ?_⟩ <;> decide

/-- Witness for `imageCache_spec` at the one-request session. -/
theorem imageCache_spec_witness :
    ImgEvent.done 42 ∉ [ImgEvent.req 42] ∧
    ((((runImgEvents [ImgEvent.req 42]).lookup 42).isSome = true ↔
        ImgEvent.req 42 ∈ [ImgEvent.req 42]) ∧
     (ImgEvent.done 42 ∉ [ImgEvent.req 42] →
       (∀ img, (runImgEvents [ImgEvent.req 42]).lookup 42 = some img →
          img.complete = false) ∧
       drawsFallback (runImgEvents [ImgEvent.req 42]) 42 = true)) :=
  ⟨by decide, imageCache_spec [ImgEvent.req 42] 42⟩

/-! ## Local-view hit test (SystemDetail `findObjectAtPosition`)

The system view's hit test reads each marker's post-collision position
and draw radius from the adjusted-position cache, computes
`actualSize = adjusted.radius / cam.zoom` and
`detectionRadius = actualSize + detectionBuffer` — the buffer (3 px for
hover, 5 px for click) is *not* divided by the zoom — and tracks the
nearest marker whose distance is below its detection radius.  Distance
comparisons are carried on squared distances, exact whenever the
detection radii are nonnegative (radii are 4..20 px, buffers 3 or 5,
zoom in [0.1, 10]). -/

/-- An adjusted-position cache entry: post-relaxation position and draw
radius. -/
structure AdjEntry where
  x : ℚ
  y : ℚ
  radius : ℚ
deriving DecidableEq, Repr

/-- The scan over the star/planet/stargate/station entries, in source
order, keeping the nearest accepted marker and its squared distance. -/
def findObjectGo (world : ℚ × ℚ) (buffer zoom : ℚ) :
    List AdjEntry → Option (AdjEntry × ℚ) → Option (AdjEntry × ℚ)
  | [], best => best
  | e :: rest, best =>
      let dr := e.radius / zoom + buffer
      let d2 := dist2 world (e.x, e.y)
      if decide (d2 < dr^2) && best.all (fun b => decide (d2 < b.2)) then
        findObjectGo world buffer zoom rest (some (e, d2))
      else findObjectGo world buffer zoom rest best

/-- `findObjectAtPosition`: transform the cursor to world space and scan
all adjusted entries. -/
def findObjectAtPosition (w h : ℚ) (cam : Camera) (mx my buffer : ℚ)
    (entries : List AdjEntry) : Option (AdjEntry × ℚ) :=
  findObjectGo (worldPoint w h cam mx my) buffer cam.zoom entries none

theorem findObjectGo_some (world : ℚ × ℚ) (buffer zoom : ℚ) :
    ∀ (l : List AdjEntry) (best : Option (AdjEntry × ℚ)) (e : AdjEntry) (d : ℚ),
      findObjectGo world buffer zoom l best = some (e, d) →
      best = some (e, d) ∨
        (e ∈ l ∧ d = dist2 world (e.x, e.y) ∧
          d < (e.radius / zoom + buffer)^2) := by
  intro l
  induction l with
  | nil => intro best e d h; exact Or.inl h
  | cons a l ih =>
      intro best e d h
      rw [findObjectGo] at h
      split at h
      · next hhit =>
          rcases ih _ e d h with heq | ⟨hmem, hrest⟩
          · obtain ⟨rfl, rfl⟩ : a = e ∧ dist2 world (a.x, a.y) = d := by
              cases heq
              exact ⟨rfl, rfl⟩
            simp only [Bool.and_eq_true, decide_eq_true_eq] at hhit
            exact Or.inr ⟨List.mem_cons_self _ _, rfl, hhit.1⟩
          · exact Or.inr ⟨List.mem_cons_of_mem _ hmem, hrest⟩
      · rcases ih _ e d h with heq | ⟨hmem, hrest⟩
        · exact Or.inl heq
        · exact Or.inr ⟨List.mem_cons_of_mem _ hmem, hrest⟩

theorem findObjectGo_isSome (world : ℚ × ℚ) (buffer zoom : ℚ) :
    ∀ (l : List AdjEntry) (p : AdjEntry × ℚ),
      (findObjectGo world buffer zoom l (some p)).isSome = true := by
  intro l
  induction l with
  | nil => intro p; rfl
  | cons a l ih =>
      intro p
      rw [findObjectGo]
      split
      · exact ih _
      · exact ih _

theorem findObjectGo_none (world : ℚ × ℚ) (buffer zoom : ℚ) :
    ∀ (l : List AdjEntry),
      findObjectGo world buffer zoom l none = none →
      ∀ e ∈ l, ¬(dist2 world (e.x, e.y) < (e.radius / zoom + buffer)^2) := by
  intro l
  induction l with
  | nil => intro _ e he; exact absurd he (List.not_mem_nil e)
  | cons a l ih =>
      intro h e he
      rw [findObjectGo] at h
      split at h
      · next hhit =>
          have := findObjectGo_isSome world buffer zoom l (a, dist2 world (a.x, a.y))
          rw [h] at this
          simp at this
      · next hhit =>
          rcases List.mem_cons.mp he with rfl | hmem
          · simp only [Option.all_none, Bool.and_true, decide_eq_true_eq] at hhit
            exact hhit
          · exact ih h e hmem

/-- C7 (amended): the local-view hit test accepts a marker exactly
against the radius `marker.radius / zoom + buffer` — only the drawn
radius is divided by the zoom; the fixed buffer (3 px hover, 5 px
click) is added undivided.  A returned marker is one of the entries, at
its true squared distance, inside that radius; a `none` result means
every entry is outside its own such radius. -/
theorem findObject_radius_formula (w h : ℚ) (cam : Camera) (mx my buffer : ℚ)
    (entries : List AdjEntry) :
    (∀ e d, findObjectAtPosition w h cam mx my buffer entries = some (e, d) →
      e ∈ entries ∧ d = dist2 (worldPoint w h cam mx my) (e.x, e.y) ∧
        d < (e.radius / cam.zoom + buffer)^2) ∧
    (findObjectAtPosition w h cam mx my buffer entries = none →
      ∀ e ∈ entries,
        ¬(dist2 (worldPoint w h cam mx my) (e.x, e.y) <
          (e.radius / cam.zoom + buffer)^2)) := by
  constructor
  · intro e d hres
    rcases findObjectGo_some _ _ _ entries none e d hres with heq | hok
    · exact absurd heq (by simp)
    · exact hok
  · exact findObjectGo_none _ _ _ entries

/-- C7 (counterexample): at zoom 2 with the hover buffer 3, a planet of
drawn radius 6 whose adjusted position is 5 px (world) from the cursor
is detected, although the claimed radius `(radius + buffer) / zoom =
4.5` would exclude it: the code's radius is `6 / 2 + 3 = 6`. -/
theorem findObject_hits_beyond_claimed_radius :
    findObjectAtPosition 800 600 ⟨0, 0, 2⟩ 410 300 3 [⟨410, 300, 6⟩] =
      some (⟨410, 300, 6⟩, 25) ∧
    ¬((25 : ℚ) < (((6 : ℚ) + 3) / 2)^2) := by
  constructor
  · norm_num [findObjectAtPosition, findObjectGo, worldPoint, dist2]
  · norm_num

/-- Witness for `findObject_radius_formula` at the same input. -/
theorem findObject_radius_formula_witness :
    findObjectAtPosition 800 600 ⟨0, 0, 2⟩ 410 300 3 [⟨410, 300, 6⟩] =
      some (⟨410, 300, 6⟩, 25) ∧
    ((⟨410, 300, 6⟩ : AdjEntry) ∈ [(⟨410, 300, 6⟩ : AdjEntry)] ∧
      (25 : ℚ) = dist2 (worldPoint 800 600 ⟨0, 0, 2⟩ 410 300) (410, 300) ∧
      (25 : ℚ) < ((6 : ℚ) / (Camera.mk 0 0 2).zoom + 3)^2) :=
  ⟨by norm_num [findObjectAtPosition, findObjectGo, worldPoint, dist2],
    (findObject_radius_formula 800 600 ⟨0, 0, 2⟩ 410 300 3 [⟨410, 300, 6⟩]).1
      ⟨410, 300, 6⟩ 25
      (by norm_num [findObjectAtPosition, findObjectGo, worldPoint, dist2])⟩


/-! ## Alliance proximity clustering (StarMap.tsx alliance label pass)

Within one alliance's member list, the source seeds a cluster with the
first unvisited member, then scans `j` from `i+1`; any unvisited member
within 150 px of *some* current cluster member is absorbed and the scan
restarts (`j = i`, bumped back to `i+1` by the loop increment).  The
outer loop seeds a new cluster at each still-unvisited index.  Members
are modelled by their projected screen positions, clusters by lists of
member indices, and `distance < 150` by its squared form. -/

abbrev QPt := ℚ × ℚ

/-- `distance < proximityThreshold` (threshold 150), in squared form. -/
def nearPt (p q : QPt) : Bool := decide (dist2 p q < 150^2)

/-- Proximity between the members at two indices. -/
def nearIdx (ps : List QPt) (c j : ℕ) : Bool :=
  nearPt (ps.getD c (0, 0)) (ps.getD j (0, 0))

/-- The inner scan: `j` walks from `i+1`; a visited index is skipped; an
unvisited index near some current cluster member is absorbed (appended,
marked visited) and the scan restarts at `i+1`; otherwise `j` advances.
Terminates because an absorption shrinks the unvisited set and a skip
shrinks the remaining range. -/
def clusterScan (ps : List QPt) (i : ℕ) (cluster : List ℕ) (visited : Finset ℕ)
    (j : ℕ) : List ℕ × Finset ℕ :=
  if hj : j < ps.length then
    if j ∈ visited then clusterScan ps i cluster visited (j+1)
    else if cluster.any (fun c => nearIdx ps c j) then
      clusterScan ps i (cluster ++ [j]) (insert j visited) (i+1)
    else clusterScan ps i cluster visited (j+1)
  else (cluster, visited)
termination_by
  (((Finset.range ps.length).filter (fun k => k ∉ visited)).card, ps.length - j)
decreasing_by
  · apply Prod.Lex.right
    omega
  · apply Prod.Lex.left
    apply Finset.card_lt_card
    constructor
    · intro k hk
      simp only [Finset.mem_filter, Finset.mem_range] at hk ⊢
      exact ⟨hk.1, fun hkv => hk.2 (Finset.mem_insert_of_mem hkv)⟩
    · intro hsub
      have hjmem : j ∈ (Finset.range ps.length).filter (fun k => k ∉ visited) := by
        simp only [Finset.mem_filter, Finset.mem_range]
        exact ⟨hj, by assumption⟩
      have := hsub hjmem
      simp only [Finset.mem_filter, Finset.mem_range] at this
      exact this.2 (Finset.mem_insert_self _ _)
  · apply Prod.Lex.right
    omega

/-- The outer loop: seed a cluster at each unvisited index in order. -/
def clustersGo (ps : List QPt) (visited : Finset ℕ) (i : ℕ) : List (List ℕ) :=
  if hi : i < ps.length then
    if i ∈ visited then clustersGo ps visited (i+1)
    else
      (clusterScan ps i [i] (insert i visited) (i+1)).1 ::
        clustersGo ps (clusterScan ps i [i] (insert i visited) (i+1)).2 (i+1)
  else []
termination_by ps.length - i

/-- The proximity clusters of one alliance's member list. -/
def allianceClusters (ps : List QPt) : List (List ℕ) := clustersGo ps ∅ 0

/-- The threshold-graph adjacency on member indices. -/
def adjIdx (ps : List QPt) (c k : ℕ) : Prop :=
  c < ps.length ∧ k < ps.length ∧ nearIdx ps c k = true

/-- Connectivity in the threshold graph (reflexive-transitive closure). -/
def reachIdx (ps : List QPt) : ℕ → ℕ → Prop := Relation.ReflTransGen (adjIdx ps)


theorem dist2_comm (p q : QPt) : dist2 p q = dist2 q p := by
  unfold dist2
  ring

theorem nearIdx_symm (ps : List QPt) (c k : ℕ) :
    nearIdx ps c k = nearIdx ps k c := by
  unfold nearIdx nearPt
  rw [dist2_comm]

theorem adjIdx_symm (ps : List QPt) : Symmetric (adjIdx ps) := by
  rintro a b ⟨ha, hb, hn⟩
  exact ⟨hb, ha, (nearIdx_symm ps b a).trans hn⟩

theorem reachIdx_symm (ps : List QPt) : Symmetric (reachIdx ps) :=
  Relation.ReflTransGen.symmetric (adjIdx_symm ps)

theorem clusterScan_spec (ps : List QPt) (i : ℕ) (v0 : Finset ℕ)
    (cluster : List ℕ) (visited : Finset ℕ) (j : ℕ) :
    i + 1 ≤ j →
    i ∈ cluster →
    (∀ c ∈ cluster, c < ps.length) →
    cluster.Nodup →
    (∀ c ∈ cluster, reachIdx ps i c) →
    visited = v0 ∪ cluster.toFinset →
    (∀ c ∈ cluster, c ∉ v0) →
    (∀ k, k < ps.length → k ∉ visited → i < k) →
    (∀ m, i < m → m < j → m ∉ visited →
      ∀ c ∈ cluster, nearIdx ps c m = false) →
    (i ∈ (clusterScan ps i cluster visited j).1 ∧
     (∀ c ∈ (clusterScan ps i cluster visited j).1, c < ps.length) ∧
     (clusterScan ps i cluster visited j).1.Nodup ∧
     (∀ c ∈ (clusterScan ps i cluster visited j).1, reachIdx ps i c) ∧
     (clusterScan ps i cluster visited j).2 =
       v0 ∪ (clusterScan ps i cluster visited j).1.toFinset ∧
     (∀ c ∈ (clusterScan ps i cluster visited j).1, c ∉ v0) ∧
     (∀ k, k < ps.length → k ∉ (clusterScan ps i cluster visited j).2 → i < k) ∧
     (∀ k, k < ps.length → k ∉ (clusterScan ps i cluster visited j).2 →
       ∀ c ∈ (clusterScan ps i cluster visited j).1, nearIdx ps c k = false)) := by
  induction cluster, visited, j using clusterScan.induct ps i with
  | case1 cluster visited j hj hmem ih =>
      intro hij hicl hbound hnd hreach hv hnot hup hA4
      rw [clusterScan, dif_pos hj, if_pos hmem]
      apply ih (Nat.le_succ_of_le hij) hicl hbound hnd hreach hv hnot hup
      intro m him hmj hmv c hc
      rcases Nat.lt_succ_iff_lt_or_eq.mp hmj with hlt | rfl
      · exact hA4 m him hlt hmv c hc
      · exact absurd hmem hmv
  | case2 cluster visited j hj hmem hany ih =>
      intro hij hicl hbound hnd hreach hv hnot hup hA4
      rw [clusterScan, dif_pos hj, if_neg hmem, if_pos hany]
      have hjcl : j ∉ cluster := by
        intro hjc
        exact hmem (hv ▸ Finset.mem_union_right _ (List.mem_toFinset.mpr hjc))
      obtain ⟨c0, hc0, hnear0⟩ := List.any_eq_true.mp hany
      apply ih (le_refl _)
      · exact List.mem_append_left _ hicl
      · intro c hc
        rcases List.mem_append.mp hc with hc | hc
        · exact hbound c hc
        · rw [List.mem_singleton.mp hc]
          exact hj
      · rw [List.nodup_append]
        exact ⟨hnd, List.nodup_singleton j,
          fun a ha hb => hjcl ((List.mem_singleton.mp hb) ▸ ha)⟩
      · intro c hc
        rcases List.mem_append.mp hc with hc | hc
        · exact hreach c hc
        · rw [List.mem_singleton.mp hc]
          exact Relation.ReflTransGen.tail (hreach c0 hc0)
            ⟨hbound c0 hc0, hj, hnear0⟩
      · rw [hv]
        ext k
        simp only [Finset.mem_insert, Finset.mem_union, List.mem_toFinset,
          List.mem_append, List.mem_singleton]
        tauto
      · intro c hc
        rcases List.mem_append.mp hc with hc | hc
        · exact hnot c hc
        · rw [List.mem_singleton.mp hc]
          intro hjv0
          exact hmem (hv ▸ Finset.mem_union_left _ hjv0)
      · intro k hk hkv
        exact hup k hk (fun hkvis => hkv (Finset.mem_insert_of_mem hkvis))
      · intro m him hmj
        omega
  | case3 cluster visited j hj hmem hany ih =>
      intro hij hicl hbound hnd hreach hv hnot hup hA4
      rw [clusterScan, dif_pos hj, if_neg hmem, if_neg hany]
      apply ih (Nat.le_succ_of_le hij) hicl hbound hnd hreach hv hnot hup
      intro m him hmj hmv c hc
      rcases Nat.lt_succ_iff_lt_or_eq.mp hmj with hlt | rfl
      · exact hA4 m him hlt hmv c hc
      · have hfalse : (cluster.any fun c => nearIdx ps c m) = false := by
          simpa using hany
        simpa using List.any_eq_false.mp hfalse c hc
  | case4 cluster visited j hj =>
      intro hij hicl hbound hnd hreach hv hnot hup hA4
      rw [clusterScan, dif_neg hj]
      refine ⟨hicl, hbound, hnd, hreach, hv, hnot, hup, ?_⟩
      intro k hk hkv c hc
      exact hA4 k (hup k hk hkv) (by omega) hkv c hc

theorem clustersGo_spec (ps : List QPt) (visited : Finset ℕ) (i : ℕ) :
    (∀ k, k < ps.length → k ∉ visited → i ≤ k) →
    ((∀ k, k < ps.length → k ∉ visited →
        (clustersGo ps visited i).countP (fun C => decide (k ∈ C)) = 1) ∧
     (∀ C ∈ clustersGo ps visited i, ∀ c ∈ C, c < ps.length ∧ c ∉ visited) ∧
     (∀ C ∈ clustersGo ps visited i, ∀ c ∈ C, ∀ c' ∈ C, reachIdx ps c c') ∧
     (∀ C ∈ clustersGo ps visited i, ∀ c ∈ C, ∀ k, k < ps.length →
        adjIdx ps c k → k ∈ visited ∨ k ∈ C)) := by
  induction visited, i using clustersGo.induct ps with
  | case1 visited i hi hmem ih =>
      intro H1
      rw [clustersGo, dif_pos hi, if_pos hmem]
      apply ih
      intro k hk hkv
      have h1 := H1 k hk hkv
      have h2 : k ≠ i := fun he => hkv (he ▸ hmem)
      omega
  | case2 visited i hi hmem ih =>
      intro H1
      rw [clustersGo, dif_pos hi, if_neg hmem]
      have hscan := clusterScan_spec ps i visited [i] (insert i visited) (i+1)
        (le_refl _) (List.mem_singleton_self i)
        (fun c hc => (List.mem_singleton.mp hc) ▸ hi)
        (List.nodup_singleton i)
        (fun c hc => (List.mem_singleton.mp hc) ▸ Relation.ReflTransGen.refl)
        (by ext k; simp [Finset.mem_insert, Or.comm])
        (fun c hc => (List.mem_singleton.mp hc) ▸ hmem)
        (by
          intro k hk hkv
          have h1 := H1 k hk (fun hkvis => hkv (Finset.mem_insert_of_mem hkvis))
          have h2 : k ≠ i := fun he => hkv (he ▸ Finset.mem_insert_self _ _)
          omega)
        (by intro m him hmj; omega)
      obtain ⟨S1, S2, S3, S4, S5, S6, S7, S8⟩ := hscan
      set r := clusterScan ps i [i] (insert i visited) (i+1) with hr
      obtain ⟨R1, R2, R3, R4⟩ := ih (fun k hk hkv => S7 k hk hkv)
      rw [← hr] at *
      refine ⟨?_, ?_, ?_, ?_⟩
      · intro k hk hkv
        rw [List.countP_cons]
        by_cases hk1 : k ∈ r.1
        · have hk2 : k ∈ r.2 := by
            rw [S5]
            exact Finset.mem_union_right _ (List.mem_toFinset.mpr hk1)
          have hzero : (clustersGo ps r.2 (i+1)).countP
              (fun C => decide (k ∈ C)) = 0 := by
            apply List.countP_eq_zero.mpr
            intro C hC
            simp only [decide_eq_true_eq]
            intro hkC
            exact (R2 C hC k hkC).2 hk2
          rw [hzero]
          simp [hk1]
        · have hk2 : k ∉ r.2 := by
            rw [S5]
            intro hmem2
            rcases Finset.mem_union.mp hmem2 with h | h
            · exact hkv h
            · exact hk1 (List.mem_toFinset.mp h)
          rw [R1 k hk hk2]
          simp [hk1]
      · intro C hC c hc
        rcases List.mem_cons.mp hC with rfl | hC
        · exact ⟨S2 c hc, S6 c hc⟩
        · obtain ⟨h1, h2⟩ := R2 C hC c hc
          exact ⟨h1, fun hcv => h2 (S5 ▸ Finset.mem_union_left _ hcv)⟩
      · intro C hC c hc c' hc'
        rcases List.mem_cons.mp hC with rfl | hC
        · exact Relation.ReflTransGen.trans
            (reachIdx_symm ps (S4 c hc)) (S4 c' hc')
        · exact R3 C hC c hc c' hc'
      · intro C hC c hc k hk hadj
        rcases List.mem_cons.mp hC with rfl | hC
        · by_contra hcon
          push_neg at hcon
          have hk2 : k ∉ r.2 := by
            rw [S5]
            intro hmem2
            rcases Finset.mem_union.mp hmem2 with h | h
            · exact hcon.1 h
            · exact hcon.2 (List.mem_toFinset.mp h)
          have := S8 k hk hk2 c hc
          rw [hadj.2.2] at this
          exact Bool.true_eq_false.mp this
        · rcases R4 C hC c hc k hk hadj with hk2 | hkC
          · rw [S5] at hk2
            rcases Finset.mem_union.mp hk2 with h | h
            · exact Or.inl h
            · exfalso
              obtain ⟨hcn, hcr2⟩ := R2 C hC c hc
              have := S8 c hcn hcr2 k (List.mem_toFinset.mp h)
              have hsym := (nearIdx_symm ps c k) ▸ hadj.2.2
              rw [hsym] at this
              exact Bool.true_eq_false.mp this
          · exact Or.inr hkC
  | case3 visited i hi =>
      intro H1
      rw [clustersGo, dif_neg hi]
      refine ⟨?_, by simp, by simp, by simp⟩
      intro k hk hkv
      have := H1 k hk hkv
      omega

/-- C6: the per-alliance proximity clustering assigns every member index
to exactly one cluster, and two members share a cluster iff they are
connected in the 150 px threshold graph — the clusters are exactly the
connected components.  Since the procedure is a pure function of the
member list and threshold, running it twice on the same input yields the
same partition. -/
theorem allianceClusters_components (ps : List QPt) (i j : ℕ)
    (hi : i < ps.length) (hj : j < ps.length) :
    (allianceClusters ps).countP (fun C => decide (i ∈ C)) = 1 ∧
    ((∃ C ∈ allianceClusters ps, i ∈ C ∧ j ∈ C) ↔ reachIdx ps i j) := by
  obtain ⟨D1, D2, D3, D4⟩ := clustersGo_spec ps ∅ 0 (fun k _ _ => Nat.zero_le k)
  refine ⟨D1 i hi (Finset.not_mem_empty i), ?_, ?_⟩
  · rintro ⟨C, hC, hiC, hjC⟩
    exact D3 C hC i hiC j hjC
  · intro hreach
    have hpos : 0 < (allianceClusters ps).countP (fun C => decide (i ∈ C)) := by
      rw [allianceClusters, D1 i hi (Finset.not_mem_empty i)]
      omega
    obtain ⟨C, hC, hiC⟩ := List.countP_pos_iff.mp hpos
    simp only [decide_eq_true_eq] at hiC
    have haux : ∀ m, reachIdx ps i m → m ∈ C := by
      intro m hm
      induction hm with
      | refl => exact hiC
      | tail hr hadj ihr =>
          rcases D4 C hC _ ihr _ hadj.2.1 hadj with habs | hmemC
          · exact absurd habs (Finset.not_mem_empty _)
          · exact hmemC
    exact ⟨C, hC, hiC, haux j hreach⟩

/-- Witness for `allianceClusters_components`: three members at
x-coordinates 0, 100 and 400; the first two are adjacent, the third is
isolated. -/
theorem allianceClusters_components_witness :
    0 < ([((0 : ℚ), (0 : ℚ)), (100, 0), (400, 0)] : List QPt).length ∧
    1 < ([((0 : ℚ), (0 : ℚ)), (100, 0), (400, 0)] : List QPt).length ∧
    ((allianceClusters [((0 : ℚ), (0 : ℚ)), (100, 0), (400, 0)]).countP
        (fun C => decide (0 ∈ C)) = 1 ∧
     ((∃ C ∈ allianceClusters [((0 : ℚ), (0 : ℚ)), (100, 0), (400, 0)],
         0 ∈ C ∧ 1 ∈ C) ↔
       reachIdx [((0 : ℚ), (0 : ℚ)), (100, 0), (400, 0)] 0 1)) :=
  ⟨by decide, by decide,
    allianceClusters_components [((0 : ℚ), (0 : ℚ)), (100, 0), (400, 0)] 0 1
      (by decide) (by decide)⟩



/-! ## Collision-avoidance relaxation (SystemDetail render loop)

The system view de-overlaps markers before drawing: up to 5 iterations;
each iteration hashes current positions into a 30 px grid
(`cellSize = minSeparation * 2`), scans each marker's 3x3 cell
neighborhood, and for each not-yet-checked pair at distance strictly
between 0 and `minSeparation = 15` pushes both markers apart along the
segment by half the penetration each (`cos/sin (atan2 dy dx)` equal
`dx/d`, `dy/d` for `d > 0`); a coincident pair (`distance > 0` fails) is
never pushed nor counted as a collision.  The loop breaks early when an
iteration flags no collision.  Positions are real numbers; the per-pair
state carries the mutated position list, the checked-pair set and the
`hadCollision` flag, exactly in the source's processing order. -/

abbrev RPt := ℝ × ℝ

/-- `Math.sqrt(dx*dx + dy*dy)` between two markers. -/
noncomputable def objDist (p q : RPt) : ℝ :=
  Real.sqrt ((q.1 - p.1) * (q.1 - p.1) + (q.2 - p.2) * (q.2 - p.2))

/-- The hash-grid cell of a position (`Math.floor(x / cellSize)`,
cell size 30). -/
noncomputable def cellOf (p : RPt) : ℤ × ℤ := (⌊p.1 / 30⌋, ⌊p.2 / 30⌋)

/-- The indices stored in one grid cell, built from the iteration-start
positions in index order. -/
noncomputable def gridCell (ps0 : List RPt) (c : ℤ × ℤ) : List ℕ :=
  (List.range ps0.length).filter (fun j => cellOf (ps0.getD j (0, 0)) = c)

/-- The mutable state of one iteration: current positions, the
`checkedPairs` set, and the `hadCollision` flag. -/
structure RelaxState where
  ps : List RPt
  checked : List (ℕ × ℕ)
  flag : Bool

/-- The `checkedPairs` key of an unordered pair (`i < j ? "i,j" : "j,i"`). -/
def pairKey (i j : ℕ) : ℕ × ℕ := if i < j then (i, j) else (j, i)

open Classical in
/-- Processing one neighbor `j` of the outer marker `i`: skip self,
skip already-checked pairs, else record the pair and, when the distance
is strictly between 0 and 15, push both markers apart and set the flag. -/
noncomputable def pairStep (i j : ℕ) (s : RelaxState) : RelaxState :=
  if i = j then s
  else if pairKey i j ∈ s.checked then s
  else
    let p1 := s.ps.getD i (0, 0)
    let p2 := s.ps.getD j (0, 0)
    let dx := p2.1 - p1.1
    let dy := p2.2 - p1.2
    let d := Real.sqrt (dx * dx + dy * dy)
    if d < 15 ∧ 0 < d then
      { ps := (s.ps.set i (p1.1 - dx / d * ((15 - d) / 2),
                           p1.2 - dy / d * ((15 - d) / 2))).set j
                (p2.1 + dx / d * ((15 - d) / 2),
                 p2.2 + dy / d * ((15 - d) / 2))
        checked := pairKey i j :: s.checked
        flag := true }
    else { s with checked := pairKey i j :: s.checked }

/-- The 3x3 cell neighborhood scan order (`dx` outer, `dy` inner). -/
def neighborOffsets : List (ℤ × ℤ) :=
  [(-1, -1), (-1, 0), (-1, 1), (0, -1), (0, 0), (0, 1), (1, -1), (1, 0), (1, 1)]

/-- Processing outer marker `i`: its cell is read from its *current*
position, the grid from the iteration-start positions. -/
noncomputable def innerStep (grid : ℤ × ℤ → List ℕ) (i : ℕ) (s : RelaxState) :
    RelaxState :=
  let c := cellOf (s.ps.getD i (0, 0))
  neighborOffsets.foldl
    (fun s' off =>
      (grid (c.1 + off.1, c.2 + off.2)).foldl (fun s'' j => pairStep i j s'') s')
    s

/-- One relaxation iteration over all markers. -/
noncomputable def runIteration (ps : List RPt) : RelaxState :=
  (List.range ps.length).foldl (fun s i => innerStep (gridCell ps) i s)
    { ps := ps, checked := [], flag := false }

/-- The iteration loop: run an iteration; if it flagged a collision,
continue with the remaining budget, else stop early.  Returns the final
positions and the number of iterations executed. -/
noncomputable def relaxGo : ℕ → List RPt → List RPt × ℕ
  | 0, ps => (ps, 0)
  | n + 1, ps =>
      let s := runIteration ps
      if s.flag then
        let r := relaxGo n s.ps
        (r.1, r.2 + 1)
      else (s.ps, 1)

/-- The relaxation pass with its budget of `maxIterations = 5`. -/
noncomputable def relaxPositions (ps : List RPt) : List RPt × ℕ := relaxGo 5 ps

/-- A violating pair the code can act on: distance strictly between 0
and `minSeparation`. -/
def Close (ps : List RPt) (i j : ℕ) : Prop :=
  0 < objDist (ps.getD i (0, 0)) (ps.getD j (0, 0)) ∧
  objDist (ps.getD i (0, 0)) (ps.getD j (0, 0)) < 15

theorem objDist_comm (p q : RPt) : objDist p q = objDist q p := by
  unfold objDist
  ring_nf

theorem objDist_nonneg (p q : RPt) : 0 ≤ objDist p q := Real.sqrt_nonneg _

theorem abs_sub_lt_of_objDist_lt {p q : RPt} (h : objDist p q < 15) :
    |q.1 - p.1| < 15 ∧ |q.2 - p.2| < 15 := by
  unfold objDist at h
  constructor
  · calc |q.1 - p.1| = Real.sqrt ((q.1 - p.1) * (q.1 - p.1)) :=
          (Real.sqrt_mul_self_eq_abs _).symm
      _ ≤ Real.sqrt ((q.1 - p.1) * (q.1 - p.1) + (q.2 - p.2) * (q.2 - p.2)) :=
          Real.sqrt_le_sqrt (by nlinarith [mul_self_nonneg (q.2 - p.2)])
      _ < 15 := h
  · calc |q.2 - p.2| = Real.sqrt ((q.2 - p.2) * (q.2 - p.2)) :=
          (Real.sqrt_mul_self_eq_abs _).symm
      _ ≤ Real.sqrt ((q.1 - p.1) * (q.1 - p.1) + (q.2 - p.2) * (q.2 - p.2)) :=
          Real.sqrt_le_sqrt (by nlinarith [mul_self_nonneg (q.1 - p.1)])
      _ < 15 := h

theorem floor_div30_diff {a b : ℝ} (h : |a - b| < 15) :
    -1 ≤ ⌊a / 30⌋ - ⌊b / 30⌋ ∧ ⌊a / 30⌋ - ⌊b / 30⌋ ≤ 1 := by
  rw [abs_sub_lt_iff] at h
  constructor
  · have hba : b / 30 ≤ a / 30 + 1 := by linarith
    have := Int.floor_le_floor hba
    rw [Int.floor_add_one] at this
    omega
  · have hab : a / 30 ≤ b / 30 + 1 := by linarith
    have := Int.floor_le_floor hab
    rw [Int.floor_add_one] at this
    omega

theorem pairStep_flag_mono {i j : ℕ} {s : RelaxState} (h : s.flag = true) :
    (pairStep i j s).flag = true := by
  unfold pairStep
  split
  · exact h
  · split
    · exact h
    · dsimp only
      split
      · rfl
      · exact h

theorem foldl_flag_mono {α : Type} (f : RelaxState → α → RelaxState)
    (hmono : ∀ s a, s.flag = true → (f s a).flag = true) :
    ∀ (l : List α) (s : RelaxState), s.flag = true →
      (l.foldl f s).flag = true := by
  intro l
  induction l with
  | nil => exact fun s h => h
  | cons a l ih => exact fun s h => ih _ (hmono s a h)

theorem innerStep_flag_mono {grid : ℤ × ℤ → List ℕ} {i : ℕ} {s : RelaxState}
    (h : s.flag = true) : (innerStep grid i s).flag = true := by
  unfold innerStep
  apply foldl_flag_mono _ _ _ _ h
  intro s' off hs'
  exact foldl_flag_mono _ (fun s'' j h'' => pairStep_flag_mono h'') _ _ hs'

/-- States reachable in an iteration that has not flagged a collision:
positions still the iteration-start ones, flag down, and every checked
pair not a (positive-distance) violation. -/
def Good (ps0 : List RPt) (s : RelaxState) : Prop :=
  s.ps = ps0 ∧ s.flag = false ∧ ∀ k ∈ s.checked, ¬Close ps0 k.1 k.2

theorem pairStep_good {ps0 : List RPt} {i j : ℕ} {s : RelaxState}
    (hg : Good ps0 s) :
    Good ps0 (pairStep i j s) ∨ (pairStep i j s).flag = true := by
  obtain ⟨hps, hflag, hch⟩ := hg
  unfold pairStep
  split
  · exact Or.inl ⟨hps, hflag, hch⟩
  next hij =>
  split
  · exact Or.inl ⟨hps, hflag, hch⟩
  next hkey =>
  dsimp only
  split
  · exact Or.inr rfl
  next hcond =>
  refine Or.inl ⟨hps, hflag, ?_⟩
  intro k hk
  rcases List.mem_cons.mp hk with rfl | hk
  · unfold pairKey
    rw [hps] at hcond
    by_cases hlt : i < j
    · rw [if_pos hlt]
      exact fun hc => hcond ⟨hc.2, hc.1⟩
    · rw [if_neg hlt]
      intro hc
      unfold Close at hc
      rw [objDist_comm] at hc
      exact hcond ⟨hc.2, hc.1⟩
  · exact hch k hk

theorem foldl_good {α : Type} (ps0 : List RPt) (f : RelaxState → α → RelaxState)
    (hmono : ∀ s a, s.flag = true → (f s a).flag = true)
    (hstep : ∀ s a, Good ps0 s → Good ps0 (f s a) ∨ (f s a).flag = true) :
    ∀ (l : List α) (s : RelaxState), Good ps0 s →
      Good ps0 (l.foldl f s) ∨ (l.foldl f s).flag = true := by
  intro l
  induction l with
  | nil => exact fun s h => Or.inl h
  | cons a l ih =>
      intro s h
      rcases hstep s a h with hg | hf
      · exact ih _ hg
      · exact Or.inr (foldl_flag_mono f hmono l _ hf)

theorem innerStep_good {ps0 : List RPt} {grid : ℤ × ℤ → List ℕ} {i : ℕ}
    {s : RelaxState} (hg : Good ps0 s) :
    Good ps0 (innerStep grid i s) ∨ (innerStep grid i s).flag = true := by
  unfold innerStep
  apply foldl_good ps0 _ _ _ _ _ hg
  · intro s' off hs'
    exact foldl_flag_mono _ (fun s'' j h'' => pairStep_flag_mono h'') _ _ hs'
  · intro s' off hs'
    exact foldl_good ps0 _ (fun s'' j h'' => pairStep_flag_mono h'')
      (fun s'' j hg'' => pairStep_good hg'') _ _ hs'

theorem runIteration_good (ps : List RPt) :
    Good ps (runIteration ps) ∨ (runIteration ps).flag = true := by
  unfold runIteration
  refine foldl_good ps _ ?_ ?_ _ _ ?_
  · intro s i hs
    exact innerStep_flag_mono hs
  · intro s i hs
    exact innerStep_good hs
  · exact ⟨rfl, rfl, by simp⟩

/-- If an iteration ends with the flag down, no pair at positive
distance below 15 existed in its starting positions: the pair's cells
differ by at most one in each axis, so the 3x3 scan reaches it, and with
no pushes the positions never moved. -/
theorem runIteration_complete (ps : List RPt)
    (hflag : (runIteration ps).flag = false) :
    ∀ i j, i < j → j < ps.length → ¬Close ps i j := by
  intro i j hij hj hClose
  have hi : i < ps.length := lt_trans hij hj
  rw [runIteration] at hflag
  set F := fun (s : RelaxState) (k : ℕ) => innerStep (gridCell ps) k s with hF
  set s0 : RelaxState := ⟨ps, [], false⟩ with hs0
  have hFmono : ∀ (s : RelaxState) (a : ℕ), s.flag = true → (F s a).flag = true :=
    fun s a hs => innerStep_flag_mono hs
  have hFgood : ∀ (s : RelaxState) (a : ℕ), Good ps s →
      Good ps (F s a) ∨ (F s a).flag = true :=
    fun s a hs => innerStep_good hs
  obtain ⟨l1, l2, hsplit⟩ := List.append_of_mem (List.mem_range.mpr hi)
  rw [hsplit, List.foldl_append, List.foldl_cons] at hflag
  set sA := List.foldl F s0 l1 with hsA
  have hFB : (F sA i).flag = false := by
    by_contra hT
    rw [Bool.not_eq_false] at hT
    rw [foldl_flag_mono F hFmono l2 _ hT] at hflag
    exact Bool.true_eq_false.mp hflag
  have hsAflag : sA.flag = false := by
    by_contra hT
    rw [Bool.not_eq_false] at hT
    rw [hFmono sA i hT] at hFB
    exact Bool.true_eq_false.mp hFB
  have hGoodA : Good ps sA := by
    rcases foldl_good ps F hFmono hFgood l1 s0 ⟨rfl, rfl, by simp⟩ with hg | hf
    · exact hg
    · rw [hf] at hsAflag
      exact absurd hsAflag (by simp)
  -- the cell offset of j's cell relative to i's cell
  set pI := ps.getD i (0, 0) with hpI
  set pJ := ps.getD j (0, 0) with hpJ
  have habs := abs_sub_lt_of_objDist_lt hClose.2
  have hfx := floor_div30_diff habs.1
  have hfy := floor_div30_diff habs.2
  set off : ℤ × ℤ :=
    ((cellOf pJ).1 - (cellOf pI).1, (cellOf pJ).2 - (cellOf pI).2) with hoff
  have hoffmem : off ∈ neighborOffsets := by
    have h1 : -1 ≤ off.1 ∧ off.1 ≤ 1 := by
      rw [hoff]
      simp only [cellOf]
      exact hfx
    have h2 : -1 ≤ off.2 ∧ off.2 ≤ 1 := by
      rw [hoff]
      simp only [cellOf]
      exact hfy
    obtain ⟨a, b⟩ := off
    simp only at h1 h2
    obtain ⟨h1l, h1r⟩ := h1
    obtain ⟨h2l, h2r⟩ := h2
    interval_cases a <;> interval_cases b <;> simp [neighborOffsets]
  have hjgrid : j ∈ gridCell ps ((cellOf pI).1 + off.1, (cellOf pI).2 + off.2) := by
    have hcelleq :
        ((cellOf pI).1 + off.1, (cellOf pI).2 + off.2) = cellOf pJ := by
      rw [hoff]
      simp
    rw [hcelleq, gridCell, List.mem_filter]
    refine ⟨List.mem_range.mpr hj, ?_⟩
    simp [hpJ]
  -- unfold the innerStep at i
  set G := fun (s' : RelaxState) (off' : ℤ × ℤ) =>
    (gridCell ps ((cellOf pI).1 + off'.1, (cellOf pI).2 + off'.2)).foldl
      (fun s'' j' => pairStep i j' s'') s' with hG
  have hGmono : ∀ (s : RelaxState) (a : ℤ × ℤ), s.flag = true →
      (G s a).flag = true :=
    fun s a hs =>
      foldl_flag_mono _ (fun s'' j' h'' => pairStep_flag_mono h'') _ _ hs
  have hGgood : ∀ (s : RelaxState) (a : ℤ × ℤ), Good ps s →
      Good ps (G s a) ∨ (G s a).flag = true :=
    fun s a hs =>
      foldl_good ps _ (fun s'' j' h'' => pairStep_flag_mono h'')
        (fun s'' j' hg'' => pairStep_good hg'') _ _ hs
  have hFAi : F sA i = neighborOffsets.foldl G sA := by
    rw [hF]
    simp only [innerStep]
    rw [hGoodA.1, hG]
  obtain ⟨o1, o2, hosplit⟩ := List.append_of_mem hoffmem
  rw [hosplit, List.foldl_append, List.foldl_cons] at hFAi
  set sC := List.foldl G sA o1 with hsC
  have hGC : (G sC off).flag = false := by
    by_contra hT
    rw [Bool.not_eq_false] at hT
    rw [hFAi, foldl_flag_mono G hGmono o2 _ hT] at hFB
    exact Bool.true_eq_false.mp hFB
  have hsCflag : sC.flag = false := by
    by_contra hT
    rw [Bool.not_eq_false] at hT
    rw [hGmono sC off hT] at hGC
    exact Bool.true_eq_false.mp hGC
  have hGoodC : Good ps sC := by
    rcases foldl_good ps G hGmono hGgood o1 sA hGoodA with hg | hf
    · exact hg
    · rw [hf] at hsCflag
      exact absurd hsCflag (by simp)
  -- unfold the cell scan at j
  obtain ⟨m1, m2, hmsplit⟩ := List.append_of_mem hjgrid
  have hGCoff : G sC off =
      List.foldl (fun s'' j' => pairStep i j' s'')
        (pairStep i j (List.foldl (fun s'' j' => pairStep i j' s'') sC m1)) m2 := by
    rw [hG]
    simp only
    rw [hmsplit, List.foldl_append, List.foldl_cons]
  set sD := List.foldl (fun s'' j' => pairStep i j' s'') sC m1 with hsD
  have hPD : (pairStep i j sD).flag = false := by
    by_contra hT
    rw [Bool.not_eq_false] at hT
    rw [hGCoff,
      foldl_flag_mono _ (fun s'' j' h'' => pairStep_flag_mono h'') m2 _ hT]
      at hGC
    exact Bool.true_eq_false.mp hGC
  have hsDflag : sD.flag = false := by
    by_contra hT
    rw [Bool.not_eq_false] at hT
    rw [pairStep_flag_mono hT] at hPD
    exact Bool.true_eq_false.mp hPD
  have hGoodD : Good ps sD := by
    rcases foldl_good ps _ (fun s'' j' h'' => pairStep_flag_mono h'')
      (fun s'' j' hg'' => pairStep_good hg'') m1 sC hGoodC with hg | hf
    · exact hg
    · rw [hf] at hsDflag
      exact absurd hsDflag (by simp)
  -- the decisive pairStep i j
  have hne : i ≠ j := Nat.ne_of_lt hij
  have hkeyval : pairKey i j = (i, j) := if_pos hij
  by_cases hkey : pairKey i j ∈ sD.checked
  · have := hGoodD.2.2 (pairKey i j) hkey
    rw [hkeyval] at this
    exact this hClose
  · have hcond :
        Real.sqrt ((pJ.1 - pI.1) * (pJ.1 - pI.1) +
          (pJ.2 - pI.2) * (pJ.2 - pI.2)) < 15 ∧
        0 < Real.sqrt ((pJ.1 - pI.1) * (pJ.1 - pI.1) +
          (pJ.2 - pI.2) * (pJ.2 - pI.2)) := by
      have h1 := hClose.1
      have h2 := hClose.2
      unfold Close objDist at h1 h2
      rw [hpI, hpJ]
      exact ⟨h2, h1⟩
    have : (pairStep i j sD).flag = true := by
      unfold pairStep
      rw [if_neg hne, if_neg hkey]
      dsimp only
      rw [hGoodD.1]
      rw [if_pos hcond]
    rw [this] at hPD
    exact Bool.true_eq_false.mp hPD

theorem pairStep_length (i j : ℕ) (s : RelaxState) :
    (pairStep i j s).ps.length = s.ps.length := by
  unfold pairStep
  split
  · rfl
  · split
    · rfl
    · dsimp only
      split
      · simp
      · rfl

theorem foldl_length {α : Type} (f : RelaxState → α → RelaxState)
    (hlen : ∀ s a, (f s a).ps.length = s.ps.length) :
    ∀ (l : List α) (s : RelaxState),
      (l.foldl f s).ps.length = s.ps.length := by
  intro l
  induction l with
  | nil => exact fun s => rfl
  | cons a l ih => exact fun s => (ih _).trans (hlen s a)

theorem innerStep_length (grid : ℤ × ℤ → List ℕ) (i : ℕ) (s : RelaxState) :
    (innerStep grid i s).ps.length = s.ps.length := by
  unfold innerStep
  exact foldl_length _
    (fun s' off => foldl_length _ (fun s'' j => pairStep_length i j s'') _ _) _ _

theorem runIteration_length (ps : List RPt) :
    (runIteration ps).ps.length = ps.length := by
  unfold runIteration
  exact foldl_length _ (fun s i => innerStep_length _ i s) _ _

theorem relaxGo_iters_le : ∀ (fuel : ℕ) (ps : List RPt),
    (relaxGo fuel ps).2 ≤ fuel := by
  intro fuel
  induction fuel with
  | zero => intro ps; rfl
  | succ n ih =>
      intro ps
      show (if (runIteration ps).flag then
        ((relaxGo n (runIteration ps).ps).1,
          (relaxGo n (runIteration ps).ps).2 + 1)
        else ((runIteration ps).ps, 1)).2 ≤ n + 1
      split
      · exact Nat.succ_le_succ (ih _)
      · omega

theorem relaxGo_early : ∀ (fuel : ℕ) (ps : List RPt),
    (relaxGo fuel ps).2 < fuel →
    ∀ i j, i < j → j < ps.length →
      objDist ((relaxGo fuel ps).1.getD i (0, 0))
          ((relaxGo fuel ps).1.getD j (0, 0)) = 0 ∨
      15 ≤ objDist ((relaxGo fuel ps).1.getD i (0, 0))
          ((relaxGo fuel ps).1.getD j (0, 0)) := by
  intro fuel
  induction fuel with
  | zero => intro ps h; omega
  | succ n ih =>
      intro ps h i j hij hj
      have hunfold : relaxGo (n + 1) ps =
          if (runIteration ps).flag then
            ((relaxGo n (runIteration ps).ps).1,
              (relaxGo n (runIteration ps).ps).2 + 1)
          else ((runIteration ps).ps, 1) := rfl
      rw [hunfold] at h ⊢
      by_cases hf : (runIteration ps).flag
      · rw [if_pos hf] at h ⊢
        simp only at h ⊢
        have hlen : j < (runIteration ps).ps.length := by
          rw [runIteration_length]; exact hj
        exact ih (runIteration ps).ps (by omega) i j hij hlen
      · rw [if_neg hf] at h ⊢
        simp only
        have hgood : Good ps (runIteration ps) := by
          rcases runIteration_good ps with hg | hT
          · exact hg
          · exact absurd hT hf
        have hnc := runIteration_complete ps
          (Bool.not_eq_true _ ▸ hf) i j hij hj
        rw [hgood.1]
        unfold Close at hnc
        push_neg at hnc
        rcases eq_or_lt_of_le (objDist_nonneg (ps.getD i (0, 0))
          (ps.getD j (0, 0))) with he | hlt
        · exact Or.inl he.symm
        · exact Or.inr (hnc hlt)

theorem pairStep_noclose {ps : List RPt} (h : ∀ a b, ¬Close ps a b)
    (i j : ℕ) {s : RelaxState} (hs : s.ps = ps ∧ s.flag = false) :
    (pairStep i j s).ps = ps ∧ (pairStep i j s).flag = false := by
  unfold pairStep
  split
  · exact hs
  · split
    · exact hs
    · dsimp only
      split
      · next hcond =>
          exfalso
          rw [hs.1] at hcond
          exact h i j ⟨hcond.2, hcond.1⟩
      · exact hs

theorem runIteration_noclose (ps : List RPt) (h : ∀ a b, ¬Close ps a b) :
    (runIteration ps).ps = ps ∧ (runIteration ps).flag = false := by
  unfold runIteration
  have hgen : ∀ {α : Type} (f : RelaxState → α → RelaxState),
      (∀ (s : RelaxState) a, s.ps = ps ∧ s.flag = false →
        (f s a).ps = ps ∧ (f s a).flag = false) →
      ∀ (l : List α) (s : RelaxState), s.ps = ps ∧ s.flag = false →
        (l.foldl f s).ps = ps ∧ (l.foldl f s).flag = false := by
    intro α f hstep l
    induction l with
    | nil => exact fun s hs => hs
    | cons a l ih => exact fun s hs => ih _ (hstep s a hs)
  apply hgen _ _ _ _ ⟨rfl, rfl⟩
  intro s i hs
  unfold innerStep
  apply hgen _ _ _ _ hs
  intro s' off hs'
  exact hgen _ (fun s'' j hs'' => pairStep_noclose h i j hs'') _ _ hs'

theorem relaxPositions_noclose (ps : List RPt) (h : ∀ a b, ¬Close ps a b) :
    relaxPositions ps = (ps, 1) := by
  unfold relaxPositions
  have hunfold : relaxGo 5 ps =
      if (runIteration ps).flag then
        ((relaxGo 4 (runIteration ps).ps).1,
          (relaxGo 4 (runIteration ps).ps).2 + 1)
      else ((runIteration ps).ps, 1) := rfl
  obtain ⟨hps, hflag⟩ := runIteration_noclose ps h
  rw [hunfold, if_neg (by rw [hflag]; exact Bool.false_ne_true), hps]

/-- C3 (amended): after the relaxation pass, every pair of markers whose
distance was below `minSeparation = 15` before the pass ends at distance
at least 15, or exactly 0 (coincident markers are never pushed and never
flagged), or the whole 5-iteration budget was executed; the early stop
fires only when no violating pair at *positive* distance remains. -/
theorem relax_separation (ps : List RPt) (i j : ℕ) (hij : i < j)
    (hj : j < ps.length)
    (hpre : objDist (ps.getD i (0, 0)) (ps.getD j (0, 0)) < 15) :
    15 ≤ objDist ((relaxPositions ps).1.getD i (0, 0))
        ((relaxPositions ps).1.getD j (0, 0)) ∨
    objDist ((relaxPositions ps).1.getD i (0, 0))
        ((relaxPositions ps).1.getD j (0, 0)) = 0 ∨
    (relaxPositions ps).2 = 5 := by
  unfold relaxPositions
  rcases Nat.lt_or_ge (relaxGo 5 ps).2 5 with hlt | hge
  · rcases relaxGo_early 5 ps hlt i j hij hj with h0 | h15
    · exact Or.inr (Or.inl h0)
    · exact Or.inl h15
  · have := relaxGo_iters_le 5 ps
    exact Or.inr (Or.inr (by omega))

theorem twoCoincident_noclose :
    ∀ a b, ¬Close [((0 : ℝ), (0 : ℝ)), (0, 0)] a b := by
  intro a b hc
  have hget : ∀ k, ([((0 : ℝ), (0 : ℝ)), (0, 0)] : List RPt).getD k (0, 0) =
      (0, 0) := by
    intro k
    match k with
    | 0 => rfl
    | 1 => rfl
    | n + 2 => simp [List.getD]
  have h0 : objDist ((0 : ℝ), (0 : ℝ)) ((0 : ℝ), (0 : ℝ)) = 0 := by
    unfold objDist
    norm_num
  rw [Close, hget a, hget b, h0] at hc
  exact lt_irrefl 0 hc.1

/-- C3 (counterexample): two markers at the same position are below
`minSeparation` before the pass, yet the relaxation stops after a single
iteration (the `distance > 0` guard never flags them) with the pair
still at distance 0 < 15 — the early stop fires while a violating pair
remains and the budget was not exhausted. -/
theorem relax_coincident_early_stop :
    objDist (([((0 : ℝ), (0 : ℝ)), (0, 0)] : List RPt).getD 0 (0, 0))
        (([((0 : ℝ), (0 : ℝ)), (0, 0)] : List RPt).getD 1 (0, 0)) < 15 ∧
    (relaxPositions [((0 : ℝ), (0 : ℝ)), (0, 0)]).2 = 1 ∧
    (1 : ℕ) ≠ 5 ∧
    ¬(15 ≤ objDist
        ((relaxPositions [((0 : ℝ), (0 : ℝ)), (0, 0)]).1.getD 0 (0, 0))
        ((relaxPositions [((0 : ℝ), (0 : ℝ)), (0, 0)]).1.getD 1 (0, 0))) := by
  have hrelax := relaxPositions_noclose _ twoCoincident_noclose
  have h0 : objDist ((0 : ℝ), (0 : ℝ)) ((0 : ℝ), (0 : ℝ)) = 0 := by
    unfold objDist
    norm_num
  refine ⟨?_, ?_, by norm_num, ?_⟩
  · show objDist ((0 : ℝ), (0 : ℝ)) ((0 : ℝ), (0 : ℝ)) < 15
    rw [h0]
    norm_num
  · rw [hrelax]
  · rw [hrelax]
    show ¬(15 ≤ objDist ((0 : ℝ), (0 : ℝ)) ((0 : ℝ), (0 : ℝ)))
    rw [h0]
    norm_num

/-- Witness for `relax_separation` at the coincident two-marker input. -/
theorem relax_separation_witness :
    (0 : ℕ) < 1 ∧
    1 < ([((0 : ℝ), (0 : ℝ)), (0, 0)] : List RPt).length ∧
    objDist (([((0 : ℝ), (0 : ℝ)), (0, 0)] : List RPt).getD 0 (0, 0))
        (([((0 : ℝ), (0 : ℝ)), (0, 0)] : List RPt).getD 1 (0, 0)) < 15 ∧
    (15 ≤ objDist
        ((relaxPositions [((0 : ℝ), (0 : ℝ)), (0, 0)]).1.getD 0 (0, 0))
        ((relaxPositions [((0 : ℝ), (0 : ℝ)), (0, 0)]).1.getD 1 (0, 0)) ∨
      objDist ((relaxPositions [((0 : ℝ), (0 : ℝ)), (0, 0)]).1.getD 0 (0, 0))
        ((relaxPositions [((0 : ℝ), (0 : ℝ)), (0, 0)]).1.getD 1 (0, 0)) = 0 ∨
      (relaxPositions [((0 : ℝ), (0 : ℝ)), (0, 0)]).2 = 5) :=
  ⟨Nat.zero_lt_one, by norm_num,
    by
      show objDist ((0 : ℝ), (0 : ℝ)) ((0 : ℝ), (0 : ℝ)) < 15
      unfold objDist
      norm_num,
    relax_separation [((0 : ℝ), (0 : ℝ)), (0, 0)] 0 1 Nat.zero_lt_one
      (by norm_num)
      (by
        show objDist ((0 : ℝ), (0 : ℝ)) ((0 : ℝ), (0 : ℝ)) < 15
        unfold objDist
        norm_num)⟩

end Ectmap
